import Mathlib

/-!
# Verification of the `tai` package

A shallow embedding of the Go package `tai` (International Atomic Time),
covering the Gregorian calendar arithmetic (`gregorian.go`) and the
TAI value type with its leap-second table (`tai.go`), together with
proofs about the embedded operations.

Go's `int`, `int64` are modelled as `Int`; Go's truncated division and
remainder (`/`, `%`, quotient rounded toward zero) are `Int.tdiv` and
`Int.tmod`.  Slices are modelled as `List`, and the package-global
mutable leap table is passed explicitly to the operations that read or
rewrite it.  Functions that can panic at runtime (out-of-range slice
index, explicit `panic`) return an outcome type with a constructor for
the panic case.
-/

namespace Tai

/-! ## Constants (`tai.go`, `gregorian.go`) -/

def Second : Int := 1

def Minute : Int := 60 * Second

def Hour : Int := 60 * Minute

def Day : Int := 24 * Hour

def unixEpochSkew : Int := 4383 * Day

def Attosecond : Int := 1

def Femtosecond : Int := 1000 * Attosecond

def Picosecond : Int := 1000000 * Attosecond

def Nanosecond : Int := 1000000000 * Attosecond

def Microsecond : Int := 1000000000000 * Attosecond

def Millisecond : Int := 1000000000000000 * Attosecond

def eraYears : Int := 400

def eraYearsm1 : Int := eraYears - 1

def epochDays : Int := 719468 - 4383

def yearDays : Int := 365

def eraDays : Int := 146097

def eraDaysm1 : Int := eraDays - 1

/-! ## Calendar arithmetic (`gregorian.go`) -/

/-- `IsLeapYear` from `gregorian.go`: divisible by 4, except centuries
unless divisible by 400.  (Go `%` is truncated remainder, `Int.tmod`.) -/
def IsLeapYear (year : Int) : Bool :=
  if Int.tmod year 4 = 0 then
    (if Int.tmod year 100 = 0 then decide (Int.tmod year 400 = 0) else true)
  else false

/-- `DaysFromCivil` from `gregorian.go` (Hinnant's `days_from_civil`):
days since Jan 1 1958 for a proleptic Gregorian date. -/
def DaysFromCivil (y0 m0 d : Int) : Int :=
  let y := if m0 ≤ 2 then y0 - 1 else y0
  let era := if 0 ≤ y then Int.tdiv y eraYears else Int.tdiv (y - eraYearsm1) eraYears
  let yoe := y - era * eraYears
  let m := if 2 < m0 then m0 - 3 else m0 + 9
  let doy := Int.tdiv (153 * m + 2) 5 + d - 1
  let doe := yoe * yearDays + Int.tdiv yoe 4 - Int.tdiv yoe 100 + doy
  era * eraDays + doe - epochDays

/-- `CivilFromDays` from `gregorian.go` (Hinnant's `civil_from_days`):
the (year, month, day) triple for a day count since Jan 1 1958. -/
def CivilFromDays (days0 : Int) : Int × Int × Int :=
  let days := days0 + epochDays
  let era0 := if 0 ≤ days then days else days - eraDaysm1
  let era := Int.tdiv era0 eraDays
  let doe := days - era * eraDays
  let yoe := Int.tdiv (doe - Int.tdiv doe 1460 + Int.tdiv doe 36524 - Int.tdiv doe 146096) 365
  let y := yoe + era * eraYears
  let doy := doe - (365 * yoe + Int.tdiv yoe 4 - Int.tdiv yoe 100)
  let mp := Int.tdiv (5 * doy + 2) 153
  let d := doy - Int.tdiv (153 * mp + 2) 5 + 1
  let m := if mp < 10 then mp + 3 else mp - 9
  if m ≤ 2 then (y + 1, m, d) else (y, m, d)

/-- `DaysFromSecsEpoch` from `gregorian.go`. -/
def DaysFromSecsEpoch (secs : Int) : Int := Int.tdiv secs Day

/-- `SecsEpochFromDays` from `gregorian.go`. -/
def SecsEpochFromDays (days : Int) : Int := days * Day

/-- `daysPerNonLeapMonth` table from `gregorian.go` (index 0 is "not a month"). -/
def daysPerNonLeapMonth : List Int :=
  [0, 31, 28, 31, 30, 31, 30, 31, 31, 30, 31, 30, 31]

/-- `daysPerLeapMonth` table from `gregorian.go`. -/
def daysPerLeapMonth : List Int :=
  [0, 31, 29, 31, 30, 31, 30, 31, 31, 30, 31, 30, 31]

/-- `DaysInMonth` from `gregorian.go`: table lookup, leap-aware for February. -/
def DaysInMonth (m y : Int) : Int :=
  if IsLeapYear y then daysPerLeapMonth.getD m.toNat 0
  else daysPerNonLeapMonth.getD m.toNat 0

/-- The `Gregorian` struct from `gregorian.go`. -/
structure Gregorian where
  Asec : Int := 0
  Year : Int := 0
  Month : Int := 0
  Day : Int := 0
  Hour : Int := 0
  Min : Int := 0
  Sec : Int := 0
deriving DecidableEq

/-! ## The leap-second table (`tai.go`) -/

/-- The `leap` struct from `tai.go`: a Unix-UTC instant and the cumulative
TAI-UTC skew from that instant on. -/
structure leap where
  UnixUTC : Int
  CumulativeSkew : Int
deriving DecidableEq

/-- The seeded leap table `leaps` from `tai.go` (28 entries, Bulletin C 68). -/
def leaps : List leap :=
  [⟨63100800, 10⟩, ⟨78735600, 11⟩, ⟨94636800, 12⟩, ⟨126172800, 13⟩,
   ⟨157708800, 14⟩, ⟨189244800, 15⟩, ⟨220867200, 16⟩, ⟨252403200, 17⟩,
   ⟨283939200, 18⟩, ⟨315475200, 19⟩, ⟨362732400, 20⟩, ⟨394268400, 21⟩,
   ⟨425804400, 22⟩, ⟨488962800, 23⟩, ⟨567936000, 24⟩, ⟨631094400, 25⟩,
   ⟨662630400, 26⟩, ⟨709887600, 27⟩, ⟨741423600, 28⟩, ⟨772959600, 29⟩,
   ⟨820396800, 30⟩, ⟨867654000, 31⟩, ⟨915091200, 32⟩, ⟨1136016000, 33⟩,
   ⟨1230710400, 34⟩, ⟨1341039600, 35⟩, ⟨1435647600, 36⟩, ⟨1483171200, 37⟩]

/-- `minLeaps` from `tai.go`: the number of entries known at build time. -/
def minLeaps : Nat := leaps.length

/-- `insertLeap` from `tai.go`: insert `value` at position `index`. -/
def insertLeap (slc : List leap) (index : Nat) (value : leap) : List leap :=
  if slc.length = index then slc ++ [value]
  else ((slc.take (index + 1) ++ slc.drop index).set index value)

/-- `removeLeap` from `tai.go`: drop the element at position `index`. -/
def removeLeap (slc : List leap) (index : Nat) : List leap :=
  slc.take index ++ slc.drop (index + 1)

/-- Outcome of a `RegisterLeapSecond` call: the updated table, one of the
two error returns, or the runtime panic from an out-of-range slice index. -/
inductive RegOutcome where
  | ok (tbl : List leap)
  | errMismatch
  | errFloor
  | indexOutOfRange
deriving DecidableEq

/-- The loop body of `RegisterLeapSecond` (`for i := start; i > 0; i++`).
The loop counter `i` only ever increases from `len-1 ≥ 1`, so the `i > 0`
test never exits the loop; the loop ends by returning, or by reading
`leaps[i]` with `i = len(leaps)` (a runtime panic).  The structural
argument `j` counts the remaining in-range indices: `i = tbl.length - j`,
so `j = 0` is the out-of-range read and `j` decreases as `i` increases. -/
def registerLoop (tbl : List leap) (unixUTC cumulativeSkew : Int) : Nat → RegOutcome
  | 0 => RegOutcome.indexOutOfRange
  | Nat.succ j =>
      let i := tbl.length - Nat.succ j
      let l := tbl.getD i ⟨0, 0⟩
      if unixUTC > l.UnixUTC then
        RegOutcome.ok (insertLeap tbl (i + 1) ⟨unixUTC, cumulativeSkew⟩)
      else if unixUTC = l.UnixUTC then
        (if cumulativeSkew ≠ l.CumulativeSkew then RegOutcome.errMismatch
         else registerLoop tbl unixUTC cumulativeSkew j)
      else registerLoop tbl unixUTC cumulativeSkew j

/-- `RegisterLeapSecond` from `tai.go`, with the table passed explicitly.
`start = len(leaps)-1`; when `start ≤ 0` the loop body never runs and the
function falls through to the "prior to the earliest leap second" error. -/
def RegisterLeapSecond (tbl : List leap) (unixUTC cumulativeSkew : Int) : RegOutcome :=
  if tbl.length ≤ 1 then RegOutcome.errFloor
  else registerLoop tbl unixUTC cumulativeSkew 1

/-- Outcome of a `RemoveLeapSecond` call: the updated table, or the
explicit panic ("would result in fewer leap seconds than IERS has
announced"); an out-of-range read is impossible here but is mapped to
the panic outcome as well. -/
inductive RemOutcome where
  | ok (tbl : List leap)
  | panicked
deriving DecidableEq

/-- The loop of `RemoveLeapSecond` (`for i := start; i > 0; i--`), with the
current index as the structural argument; `start` keeps the value it had
before the loop, as in the source. -/
def removeLoop (unixUTC : Int) (start minL : Nat) : Nat → List leap → RemOutcome
  | 0, tbl => RemOutcome.ok tbl
  | Nat.succ j, tbl =>
      match tbl.get? (Nat.succ j) with
      | some l =>
          if unixUTC = l.UnixUTC then
            (if start < minL then RemOutcome.panicked
             else removeLoop unixUTC start minL j (removeLeap tbl (Nat.succ j)))
          else removeLoop unixUTC start minL j tbl
      | none => RemOutcome.panicked

/-- `RemoveLeapSecond` from `tai.go`, with the table passed explicitly. -/
def RemoveLeapSecond (tbl : List leap) (unixUTC : Int) : RemOutcome :=
  removeLoop unixUTC (tbl.length - 1) minLeaps (tbl.length - 1) tbl

/-- The loop of `skewUnix` (`for i := len(leaps)-1; i > 0; i--`), with the
current index as the structural argument.  Note the loop stops at `i = 1`:
index 0 is never examined. -/
def skewUnixFrom (tbl : List leap) (s : Int) : Nat → Int
  | 0 => 0
  | Nat.succ j =>
      let l := tbl.getD (Nat.succ j) ⟨0, 0⟩
      if s > l.UnixUTC then l.CumulativeSkew else skewUnixFrom tbl s j

/-- `skewUnix` from `tai.go` on an explicit table. -/
def skewUnixTable (tbl : List leap) (s : Int) : Int :=
  skewUnixFrom tbl s (tbl.length - 1)

/-- `skewUnix` from `tai.go` on the seeded table. -/
def skewUnix (s : Int) : Int := skewUnixTable leaps s

/-! ## The TAI value type (`tai.go`) -/

/-- The `TAI` struct: whole seconds and attoseconds since Jan 1 1958. -/
structure TAI where
  sec : Int
  asec : Int
deriving DecidableEq

/-- The normalizing constructor `Tai` from `tai.go`. -/
def Tai (sec0 asec0 : Int) : TAI :=
  let spareSecs := Int.tdiv asec0 1000000000000000000
  let asec := Int.tmod asec0 1000000000000000000
  let sec := sec0 + spareSecs
  if asec < 0 then ⟨sec - Second, asec + 1000000000000000000⟩
  else ⟨sec, asec⟩

/-- `FromGregorian` from `tai.go`. -/
def FromGregorian (g : Gregorian) : TAI :=
  let d := DaysFromCivil g.Year g.Month g.Day
  let s := SecsEpochFromDays d
  Tai s g.Asec

/-- The `for rem < 0 { rem += Day; D-- }` loop in `TAI.AsGregorian`. -/
def adjustNeg (rem D : Int) : Int × Int :=
  if rem < 0 then adjustNeg (rem + Day) (D - 1) else (rem, D)
termination_by (-rem).toNat
decreasing_by simp only [Day, Hour, Minute, Second] at *; omega

/-- The `for rem >= Day { rem -= Day; D++ }` loop in `TAI.AsGregorian`. -/
def adjustPos (rem D : Int) : Int × Int :=
  if rem ≥ Day then adjustPos (rem - Day) (D + 1) else (rem, D)
termination_by rem.toNat
decreasing_by simp only [Day, Hour, Minute, Second] at *; omega

/-- `TAI.AsGregorian` from `tai.go`: decompose a TAI value into calendar
fields, fixing up the truncated division of negative seconds with the two
adjustment loops from the source. -/
def TAI.AsGregorian (t : TAI) : Gregorian :=
  let d := DaysFromSecsEpoch t.sec
  let Y := (CivilFromDays d).1
  let M := (CivilFromDays d).2.1
  let D := (CivilFromDays d).2.2
  let rem := Int.tmod t.sec Day
  let p := adjustNeg rem D
  let q := adjustPos p.1 p.2
  let hr := Int.tdiv q.1 Hour
  let rem2 := Int.tmod q.1 Hour
  let mn := Int.tdiv rem2 Minute
  let rem3 := Int.tmod rem2 Minute
  { Year := Y, Month := M, Day := q.2, Hour := hr, Min := mn, Sec := rem3,
    Asec := t.asec }

/-- `TAI.Unix` from `tai.go`: the (seconds, nanoseconds) Unix-UTC
representation; the skew is looked up at `t.sec - unixEpochSkew`. -/
def TAI.Unix (t : TAI) : Int × Int :=
  let secs := t.sec - unixEpochSkew
  let nsecs := Int.tdiv t.asec Nanosecond
  let skew := skewUnix secs
  (secs - skew, nsecs)

/-- The function `Unix` from `tai.go`: TAI value of a Unix-UTC instant;
the skew is looked up at the given Unix seconds.  Note: no normalization
of `nsec * Nanosecond`. -/
def Unix (seconds nsec : Int) : TAI :=
  let skew := skewUnix seconds
  ⟨seconds + unixEpochSkew + skew, nsec * Nanosecond⟩

/-- `Date` from `tai.go`. -/
def Date (y m d : Int) : TAI :=
  ⟨SecsEpochFromDays (DaysFromCivil y m d), 0⟩

/-- `TAI.AddHMS` from `tai.go`. -/
def TAI.AddHMS (t : TAI) (h m s : Int) : TAI :=
  ⟨t.sec + h * Hour + m * Minute + s, t.asec⟩

/-- `TAI.Add` from `tai.go`: offset by seconds and attoseconds, with the
in-place renormalization from the source. -/
def TAI.Add (t : TAI) (sec asec : Int) : TAI :=
  let asec1 := t.asec + asec
  let sec1 := t.sec + Int.tdiv asec1 1000000000000000000 + sec
  let asec2 := Int.tmod asec1 1000000000000000000
  if asec2 < 0 then ⟨sec1 - Second, asec2 + 1000000000000000000⟩
  else ⟨sec1, asec2⟩

/-- `TAI.AddMilliseconds` from `tai.go`. -/
def TAI.AddMilliseconds (t : TAI) (msec : Int) : TAI :=
  t.Add (Int.tdiv msec 1000) (Int.tmod msec 1000 * Millisecond)

/-- `TAI.AddMicroseconds` from `tai.go`. -/
def TAI.AddMicroseconds (t : TAI) (musec : Int) : TAI :=
  t.Add (Int.tdiv musec 1000000) (Int.tmod musec 1000000 * Microsecond)

/-- `TAI.AddNanoseconds` from `tai.go`. -/
def TAI.AddNanoseconds (t : TAI) (nsec : Int) : TAI :=
  t.Add (Int.tdiv nsec 1000000000) (Int.tmod nsec 1000000000 * Nanosecond)

/-! ## Specification-side helpers -/

/-- The leap-table ordering invariant: strictly ascending in `UnixUTC`. -/
def strictAscending (tbl : List leap) : Prop :=
  tbl.Pairwise (fun a b => a.UnixUTC < b.UnixUTC)

/-- The lookup the spec describes: the `CumulativeSkew` of the latest entry
whose `UnixUTC` is strictly less than `s`, and `0` when no entry qualifies
(scan left to right keeping the last match; on an ascending table the last
match is the latest qualifying entry). -/
def lookupLatestBelow (tbl : List leap) (s : Int) : Int :=
  tbl.foldl (fun acc l => if l.UnixUTC < s then l.CumulativeSkew else acc) 0

/-- The normalization invariant for TAI values: `0 <= asec < 1e18`. -/
def normalized (t : TAI) : Prop :=
  0 ≤ t.asec ∧ t.asec < 1000000000000000000

/-- Run a sequence of `RegisterLeapSecond` calls, all of which are required
to return nil; `none` when any call errors or panics. -/
def applyRegisters : List (Int × Int) → List leap → Option (List leap)
  | [], tbl => some tbl
  | (u, c) :: rest, tbl =>
      match RegisterLeapSecond tbl u c with
      | RegOutcome.ok tbl2 => applyRegisters rest tbl2
      | _ => none

/-- A table-mutating call: a registration or a removal. -/
inductive tableOp where
  | reg (u c : Int)
  | rem (u : Int)

/-- Run a sequence of table operations; error returns leave the table
unchanged and the program continues, panics end the run (`none`). -/
def applyOps : List tableOp → List leap → Option (List leap)
  | [], tbl => some tbl
  | tableOp.reg u c :: rest, tbl =>
      match RegisterLeapSecond tbl u c with
      | RegOutcome.ok tbl2 => applyOps rest tbl2
      | RegOutcome.errMismatch => applyOps rest tbl
      | RegOutcome.errFloor => applyOps rest tbl
      | RegOutcome.indexOutOfRange => none
  | tableOp.rem u :: rest, tbl =>
      match RemoveLeapSecond tbl u with
      | RemOutcome.ok tbl2 => applyOps rest tbl2
      | RemOutcome.panicked => none

/-- Number of table entries with the given `UnixUTC`. -/
def countKey (u : Int) (tbl : List leap) : Nat :=
  tbl.countP (fun l => l.UnixUTC == u)

instance (t : TAI) : Decidable (normalized t) := by
  unfold normalized
  infer_instance

instance (tbl : List leap) : Decidable (strictAscending tbl) := by
  unfold strictAscending
  infer_instance

/-- First day-of-era of year-of-era `yoe` (`365*yoe + yoe/4 - yoe/100`,
the start-of-year expression of Hinnant's algorithm). -/
def startOfYoe (yoe : Int) : Int := 365 * yoe + yoe / 4 - yoe / 100

/-- Day count of year-of-era `yoe`.  The years of an era are March-based;
the leap day of year-of-era `yoe` sits in the February that civil
arithmetic attributes to year `yoe + 1` of the era. -/
def lenOfYoe (yoe : Int) : Int :=
  if (yoe + 1) % 4 = 0 ∧ ((yoe + 1) % 100 ≠ 0 ∨ (yoe + 1) % 400 = 0) then 366
  else 365

/-- The leap-day correction sum inside `CivilFromDays`. -/
def fCorr (x : Int) : Int := x - x / 1460 + x / 36524 - x / 146096

/-- Endpoint check for one year of era: `fCorr` maps the first and the
last day of the year into `[365*yoe, 365*yoe + 364]`. -/
def checkYoe (yoe : Int) : Bool :=
  decide (365 * yoe ≤ fCorr (startOfYoe yoe)) &&
  decide (fCorr (startOfYoe yoe + lenOfYoe yoe - 1) ≤ 365 * yoe + 364)

/-- Conjunction of the endpoint checks for all years of era below `n`. -/
def allYoeBelow : Nat → Bool
  | 0 => true
  | n + 1 => checkYoe (n : Int) && allYoeBelow n

/-! ## General helper lemmas: Go division vs Euclidean division -/

/-- Truncated division of a negative numerator by a positive denominator,
in terms of Euclidean division. -/
theorem tdiv_of_neg (a b : Int) (h : a < 0) (hb : 0 < b) :
    Int.tdiv a b = -(-a / b) := by
  have h2 : (-a).tdiv b = -(a.tdiv b) := Int.neg_tdiv a b
  have h3 : (-a).tdiv b = -a / b := Int.tdiv_eq_ediv (by omega) (by omega)
  omega

/-- Truncated remainder of a negative numerator by a positive denominator,
in terms of the Euclidean remainder. -/
theorem tmod_of_neg (a b : Int) (h : a < 0) (hb : 0 < b) :
    Int.tmod a b = -(-a % b) := by
  have h1 := Int.tdiv_add_tmod a b
  have h2 : (-a).tdiv b = -(a.tdiv b) := Int.neg_tdiv a b
  have h3 : (-a).tdiv b = -a / b := Int.tdiv_eq_ediv (by omega) (by omega)
  have h4 : -a % b = -a - b * (-a / b) := Int.emod_def _ _
  have h5 : a.tdiv b = -(-a / b) := by omega
  rw [h5] at h1
  linarith [h1, h4]

/-- Truncated division of a nonnegative numerator, in Euclidean terms. -/
theorem tdiv_of_nonneg (a b : Int) (h : 0 ≤ a) (hb : 0 ≤ b) :
    Int.tdiv a b = a / b := Int.tdiv_eq_ediv h hb

/-- Truncated remainder of a nonnegative numerator, in Euclidean terms. -/
theorem tmod_of_nonneg (a b : Int) (h : 0 ≤ a) (hb : 0 ≤ b) :
    Int.tmod a b = a % b := Int.tmod_eq_emod h hb

/-! ## Evaluation lemmas for the `AsGregorian` adjustment loops -/

theorem adjustNeg_of_nonneg (rem D : Int) (h : 0 ≤ rem) :
    adjustNeg rem D = (rem, D) := by
  unfold adjustNeg
  rw [if_neg (by omega)]

theorem adjustNeg_once (rem D : Int) (h : rem < 0) (h2 : 0 ≤ rem + Day) :
    adjustNeg rem D = (rem + Day, D - 1) := by
  unfold adjustNeg
  rw [if_pos h]
  exact adjustNeg_of_nonneg _ _ h2

theorem adjustPos_of_lt (rem D : Int) (h : rem < Day) :
    adjustPos rem D = (rem, D) := by
  unfold adjustPos
  rw [if_neg (by omega)]

/-- C10: for every TAI value and all arguments, `Add` agrees with the
normalizing constructor `Tai` applied to the componentwise sums; the
in-place renormalization in `Add` and the constructor's normalization
are the same function. -/
theorem Add_eq_Tai (t : TAI) (sec asec : Int) :
    t.Add sec asec = Tai (t.sec + sec) (t.asec + asec) := by
  simp only [TAI.Add, Tai]
  split_ifs with h1
  · simp only [TAI.mk.injEq]
    constructor <;> ring
  · simp only [TAI.mk.injEq]
    constructor <;> ring

/-- C9: the zero TAI value decomposes to the epoch civil date
Jan 1 1958 00:00:00 with all sub-fields zero, and the TAI value
`4383` days (= 12 civil years) after the epoch decomposes to
Jan 1 1970 00:00:00, the conventional Unix reference epoch. -/
theorem AsGregorian_epoch_fixed_points :
    TAI.AsGregorian ⟨0, 0⟩ =
      { Asec := 0, Year := 1958, Month := 1, Day := 1, Hour := 0, Min := 0, Sec := 0 } ∧
    TAI.AsGregorian ⟨4383 * 86400, 0⟩ =
      { Asec := 0, Year := 1970, Month := 1, Day := 1, Hour := 0, Min := 0, Sec := 0 } := by
  constructor
  · simp only [TAI.AsGregorian]
    rw [adjustNeg_of_nonneg _ _ (by decide), adjustPos_of_lt _ _ (by decide)]
    decide
  · simp only [TAI.AsGregorian]
    rw [adjustNeg_of_nonneg _ _ (by decide), adjustPos_of_lt _ _ (by decide)]
    decide

/-- C4 (code bug): registering an instant already in the table, other
than as a mismatching duplicate of the last entry, makes the loop
`for i := start; i > 0; i++` run past the end of the table and read
`leaps[len(leaps)]`: a runtime index-out-of-range panic.  The doc
comment of `RegisterLeapSecond` promises a silent nil return when the
skew matches and an error return when it does not. -/
theorem RegisterLeapSecond_duplicate_panics :
    RegisterLeapSecond leaps 78735600 11 = RegOutcome.indexOutOfRange ∧
    RegisterLeapSecond leaps 78735600 99 = RegOutcome.indexOutOfRange ∧
    RegisterLeapSecond leaps 1483171200 37 = RegOutcome.indexOutOfRange := by
  refine ⟨by decide, by decide, by decide⟩

/-- C5 (code bug): the instant one second before the epoch decomposes
with `Day = 0`: the day-adjustment loop in `AsGregorian` decrements the
day field without rolling the month over, so the canonical decomposition
1957-12-31 23:59:59 is reported as 1958-01-00 23:59:59. -/
theorem AsGregorian_day_zero :
    TAI.AsGregorian ⟨-1, 0⟩ =
      { Asec := 0, Year := 1958, Month := 1, Day := 0, Hour := 23, Min := 59, Sec := 59 } := by
  simp only [TAI.AsGregorian]
  rw [adjustNeg_once _ _ (by decide) (by decide), adjustPos_of_lt _ _ (by decide)]
  decide

/-! ## Normalization invariant (C6) -/

/-- Bounds for the truncated remainder by `1e18`. -/
theorem tmod_e18_bounds (a : Int) :
    -1000000000000000000 < Int.tmod a 1000000000000000000 ∧
    Int.tmod a 1000000000000000000 < 1000000000000000000 := by
  rcases le_or_lt 0 a with h | h
  · rw [tmod_of_nonneg a _ h (by norm_num)]
    have h1 := Int.emod_nonneg a (show (1000000000000000000 : Int) ≠ 0 by norm_num)
    have h2 := Int.emod_lt_of_pos a (show (0 : Int) < 1000000000000000000 by norm_num)
    omega
  · rw [tmod_of_neg a _ h (by norm_num)]
    have h1 := Int.emod_nonneg (-a) (show (1000000000000000000 : Int) ≠ 0 by norm_num)
    have h2 := Int.emod_lt_of_pos (-a) (show (0 : Int) < 1000000000000000000 by norm_num)
    omega

/-- The constructor `Tai` always produces a normalized value. -/
theorem normalized_Tai (sec asec : Int) : normalized (Tai sec asec) := by
  have hb := tmod_e18_bounds asec
  simp only [Tai, normalized]
  split_ifs with h <;> dsimp only <;> omega

/-- `Add` always produces a normalized value (whatever the receiver). -/
theorem normalized_Add (t : TAI) (sec asec : Int) : normalized (t.Add sec asec) := by
  have hb := tmod_e18_bounds (t.asec + asec)
  simp only [TAI.Add, normalized]
  split_ifs with h <;> dsimp only <;> omega

/-- C6 (amended): every listed public operation returns a value with
`0 <= asec < 1e18` — unconditionally for the normalizing operations, and
for `Unix` under the documented nanosecond range `0 <= nsec < 1e9`
(`Unix` does not normalize its fraction). -/
theorem normalized_public_ops :
    (∀ sec asec : Int, normalized (Tai sec asec)) ∧
    (∀ (t : TAI) (sec asec : Int), normalized t → normalized (t.Add sec asec)) ∧
    (∀ (t : TAI) (h m s : Int), normalized t → normalized (t.AddHMS h m s)) ∧
    (∀ (t : TAI) (msec : Int), normalized t → normalized (t.AddMilliseconds msec)) ∧
    (∀ (t : TAI) (musec : Int), normalized t → normalized (t.AddMicroseconds musec)) ∧
    (∀ (t : TAI) (nsec : Int), normalized t → normalized (t.AddNanoseconds nsec)) ∧
    (∀ g : Gregorian, normalized (FromGregorian g)) ∧
    (∀ y m d : Int, normalized (Date y m d)) ∧
    (∀ seconds nsec : Int, 0 ≤ nsec → nsec < 1000000000 → normalized (Unix seconds nsec)) := by
  refine ⟨normalized_Tai, fun t sec asec _ => normalized_Add t sec asec,
    fun t h m s ht => ht, fun t msec _ => normalized_Add _ _ _,
    fun t musec _ => normalized_Add _ _ _, fun t nsec _ => normalized_Add _ _ _,
    fun g => normalized_Tai _ _, fun y m d => by norm_num [normalized, Date],
    fun seconds nsec h1 h2 => ?_⟩
  simp only [Unix, normalized, Nanosecond, Attosecond]
  omega

/-- Closed instances of `normalized_public_ops` with its hypotheses
discharged at concrete inputs. -/
theorem normalized_public_ops_witness :
    normalized (Tai 3 (-5)) ∧
    normalized ((⟨7, 5⟩ : TAI).Add 2 (-7000000000000000000)) ∧
    normalized ((⟨7, 5⟩ : TAI).AddMilliseconds (-1234567)) ∧
    normalized (Unix 12 999999999) :=
  ⟨normalized_public_ops.1 3 (-5),
   normalized_public_ops.2.1 ⟨7, 5⟩ 2 (-7000000000000000000) (by decide),
   normalized_public_ops.2.2.2.1 ⟨7, 5⟩ (-1234567) (by decide),
   normalized_public_ops.2.2.2.2.2.2.2.2 12 999999999 (by norm_num) (by norm_num)⟩

/-- C6 (counterexample): `Unix` with a negative nanosecond argument
returns a value violating the invariant (`asec = -1e9`). -/
theorem Unix_negative_nsec_not_normalized : ¬ normalized (Unix 0 (-1)) := by
  decide

/-! ## The skew lookup (C1) -/

/-- `lookupLatestBelow` on a table extended at the right. -/
theorem lookupLatestBelow_append (A : List leap) (x : leap) (s : Int) :
    lookupLatestBelow (A ++ [x]) s =
      if x.UnixUTC < s then x.CumulativeSkew else lookupLatestBelow A s := by
  unfold lookupLatestBelow
  rw [List.foldl_append]
  rfl

/-- The `skewUnix` loop, characterized: scanning indices `i, i-1, ..., 1`
is the spec lookup over the slice `tbl[1 : i+1]`. -/
theorem skewUnixFrom_eq_lookup (tbl : List leap) (s : Int) :
    ∀ i, i < tbl.length →
      skewUnixFrom tbl s i = lookupLatestBelow ((tbl.take (i + 1)).drop 1) s := by
  intro i
  induction i with
  | zero =>
      intro h
      match tbl, h with
      | a :: rest, _ => simp [skewUnixFrom, lookupLatestBelow]
  | succ j ih =>
      intro h
      have hj : j < tbl.length := by omega
      have htake : tbl.take (j + 2) = tbl.take (j + 1) ++ [tbl[j + 1]] := by
        rw [List.take_succ, List.getElem?_eq_getElem h]
        rfl
      have hlen : 1 ≤ (tbl.take (j + 1)).length := by
        simp only [List.length_take]
        omega
      have hdrop : (tbl.take (j + 2)).drop 1 =
          (tbl.take (j + 1)).drop 1 ++ [tbl[j + 1]] := by
        rw [htake, List.drop_append_of_le_length hlen]
      rw [hdrop, lookupLatestBelow_append, ← ih hj]
      simp only [skewUnixFrom, List.getD_eq_getElem tbl ⟨0, 0⟩ h]

/-- C1 (amended): `skewUnix` returns the `CumulativeSkew` of the latest
entry **excluding the first table entry** whose `UnixUTC` is strictly
less than the query, and `0` when no such entry exists; the first seed
entry is unreachable because the scan loop stops at index 1. -/
theorem skewUnix_eq_lookup_tail (s : Int) :
    skewUnix s = lookupLatestBelow (leaps.drop 1) s := by
  have h := skewUnixFrom_eq_lookup leaps s 27 (by decide)
  have h2 : leaps.take 28 = leaps := rfl
  rw [h2] at h
  exact h

/-- C1 (counterexample): a query strictly between the first seed entry
(63100800, skew 10) and the second (78735600) returns 0, not 10. -/
theorem skewUnix_first_window_zero :
    skewUnix 63100801 = 0 ∧ skewUnix 63100801 ≠ 10 := by
  decide

/-! ## Unix round trip (C3) -/

/-- C3 (amended): `Unix (t.Unix())` is the identity for TAI values whose
fraction is a whole number of nanoseconds **and** whose skew lookup is
stable under removing the skew (`skewUnix (u - skewUnix u) = skewUnix u`
for `u = t.sec - unixEpochSkew`).  Instants in the first few seconds
after a leap boundary violate the stability condition. -/
theorem Unix_roundtrip (t : TAI)
    (h1 : Nanosecond ∣ t.asec)
    (h2 : skewUnix (t.sec - unixEpochSkew - skewUnix (t.sec - unixEpochSkew)) =
          skewUnix (t.sec - unixEpochSkew)) :
    Unix (t.Unix).1 (t.Unix).2 = t := by
  cases t with
  | mk sec asec =>
      obtain ⟨k, hk⟩ := h1
      simp only at hk h2
      simp only [TAI.Unix, Unix, TAI.mk.injEq]
      constructor
      · rw [h2]
        ring
      · rw [hk, Int.mul_tdiv_cancel_left k
          (show Nanosecond ≠ 0 by norm_num [Nanosecond, Attosecond])]
        ring

/-- Closed instance of `Unix_roundtrip` at the first leap boundary
(TAI second 441792000 is Unix second 63100800). -/
theorem Unix_roundtrip_witness :
    Unix ((⟨441792000, 0⟩ : TAI).Unix).1 ((⟨441792000, 0⟩ : TAI).Unix).2 =
      ⟨441792000, 0⟩ :=
  Unix_roundtrip ⟨441792000, 0⟩ ⟨0, by norm_num⟩ (by decide)

/-- C3 (counterexample): one second after the second leap boundary the
round trip loses 11 seconds: `Unix (t.Unix())` differs from `t` at
`t = ⟨457426801, 0⟩` (Unix second 78735601). -/
theorem Unix_not_roundtrip :
    Unix ((⟨457426801, 0⟩ : TAI).Unix).1 ((⟨457426801, 0⟩ : TAI).Unix).2 ≠
      ⟨457426801, 0⟩ := by
  decide

/-! ## Leap-table mutation invariants (C7, C8) -/

/-- `insertLeap` at the end of the slice appends. -/
theorem insertLeap_append (tbl : List leap) (v : leap) :
    insertLeap tbl tbl.length v = tbl ++ [v] := by
  unfold insertLeap
  rw [if_pos rfl]

/-- A nil-returning `RegisterLeapSecond` call appends one entry whose
instant exceeds the last entry's.  (With at least two entries, the loop
either returns on the first iteration or reads past the table.) -/
theorem RegisterLeapSecond_ok (tbl : List leap) (u c : Int) (tbl2 : List leap)
    (hlen : 2 ≤ tbl.length)
    (h : RegisterLeapSecond tbl u c = RegOutcome.ok tbl2) :
    (tbl.getD (tbl.length - 1) ⟨0, 0⟩).UnixUTC < u ∧ tbl2 = tbl ++ [⟨u, c⟩] := by
  unfold RegisterLeapSecond at h
  rw [if_neg (by omega)] at h
  have hbody : registerLoop tbl u c 1 =
      (if u > (tbl.getD (tbl.length - 1) ⟨0, 0⟩).UnixUTC then
         RegOutcome.ok (insertLeap tbl (tbl.length - 1 + 1) ⟨u, c⟩)
       else if u = (tbl.getD (tbl.length - 1) ⟨0, 0⟩).UnixUTC then
         (if c ≠ (tbl.getD (tbl.length - 1) ⟨0, 0⟩).CumulativeSkew then
            RegOutcome.errMismatch
          else RegOutcome.indexOutOfRange)
       else RegOutcome.indexOutOfRange) := rfl
  rw [hbody] at h
  split_ifs at h with hgt
  refine ⟨hgt, ?_⟩
  rw [show tbl.length - 1 + 1 = tbl.length by omega, insertLeap_append] at h
  exact (RegOutcome.ok.inj h).symm

/-- Each entry of a strictly ascending table is at most the last entry. -/
theorem key_le_last (tbl : List leap) (hs : strictAscending tbl) :
    ∀ x ∈ tbl, x.UnixUTC ≤ (tbl.getD (tbl.length - 1) ⟨0, 0⟩).UnixUTC := by
  induction tbl with
  | nil =>
      intro x hx
      simp at hx
  | cons a rest ih =>
      intro x hx
      rw [strictAscending, List.pairwise_cons] at hs
      obtain ⟨ha, hrest⟩ := hs
      cases rest with
      | nil =>
          simp at hx
          subst hx
          simp
      | cons b rest2 =>
          have hlast : (a :: b :: rest2).getD ((a :: b :: rest2).length - 1) ⟨0, 0⟩
              = (b :: rest2).getD ((b :: rest2).length - 1) ⟨0, 0⟩ := by
            simp [List.getD_cons_succ]
          rw [hlast]
          rcases List.mem_cons.mp hx with rfl | hx2
          · have hmem : (b :: rest2).getD ((b :: rest2).length - 1) ⟨0, 0⟩ ∈ b :: rest2 := by
              rw [List.getD_eq_getElem _ _ (by simp)]
              exact List.getElem_mem _
            exact le_of_lt (ha _ hmem)
          · exact ih hrest x hx2

/-- Appending an entry larger than every existing entry keeps the table
strictly ascending. -/
theorem strictAscending_append (tbl : List leap) (v : leap) (hs : strictAscending tbl)
    (h : ∀ x ∈ tbl, x.UnixUTC < v.UnixUTC) : strictAscending (tbl ++ [v]) := by
  unfold strictAscending at *
  rw [List.pairwise_append]
  refine ⟨hs, List.pairwise_singleton _ _, fun a ha b hb => ?_⟩
  simp only [List.mem_singleton] at hb
  subst hb
  exact h a ha

/-- Invariant preservation along a run of nil-returning registrations. -/
theorem applyRegisters_sorted_aux :
    ∀ (ops : List (Int × Int)) (tbl tbl' : List leap),
      strictAscending tbl → 2 ≤ tbl.length →
      applyRegisters ops tbl = some tbl' →
      strictAscending tbl' ∧ 2 ≤ tbl'.length := by
  intro ops
  induction ops with
  | nil =>
      intro tbl tbl' hs hl h
      simp only [applyRegisters, Option.some.injEq] at h
      subst h
      exact ⟨hs, hl⟩
  | cons p rest ih =>
      intro tbl tbl' hs hl h
      obtain ⟨u, c⟩ := p
      unfold applyRegisters at h
      cases hreg : RegisterLeapSecond tbl u c with
      | ok tbl2 =>
          rw [hreg] at h
          simp only at h
          obtain ⟨hlt, heq⟩ := RegisterLeapSecond_ok tbl u c tbl2 hl hreg
          subst heq
          refine ih _ _ ?_ ?_ h
          · exact strictAscending_append _ _ hs
              (fun x hx => lt_of_le_of_lt (key_le_last tbl hs x hx) hlt)
          · simp only [List.length_append, List.length_singleton]
            omega
      | errMismatch =>
          rw [hreg] at h
          simp at h
      | errFloor =>
          rw [hreg] at h
          simp at h
      | indexOutOfRange =>
          rw [hreg] at h
          simp at h

/-- C7: starting from the seeded table, after any finite sequence of
`RegisterLeapSecond` calls that all return nil the table is strictly
ascending in `UnixUTC`. -/
theorem applyRegisters_strictAscending (ops : List (Int × Int)) (tbl' : List leap)
    (h : applyRegisters ops leaps = some tbl') : strictAscending tbl' :=
  (applyRegisters_sorted_aux ops leaps tbl' (by decide) (by decide) h).1

/-- Closed instance of C7: one successful registration after the seed. -/
theorem applyRegisters_strictAscending_witness :
    strictAscending (leaps ++ [(⟨1500000000, 38⟩ : leap)]) :=
  applyRegisters_strictAscending [((1500000000 : Int), (38 : Int))]
    (leaps ++ [(⟨1500000000, 38⟩ : leap)]) (by decide)

/-- `removeLeap` in terms of take/drop around the removed index. -/
theorem removeLeap_decomp (tbl : List leap) (n : Nat) (h : n < tbl.length) :
    tbl = tbl.take n ++ tbl[n] :: tbl.drop (n + 1) ∧
    removeLeap tbl n = tbl.take n ++ tbl.drop (n + 1) := by
  refine ⟨?_, rfl⟩
  conv_lhs => rw [← List.take_append_drop n tbl]
  rw [List.drop_eq_getElem_cons h]

/-- Removing a matching entry: the table shrinks by one, stays a sublist,
and loses exactly one entry with the removed key. -/
theorem countKey_remove (tbl : List leap) (n : Nat) (h : n < tbl.length)
    (u : Int) (hu : tbl[n].UnixUTC = u) :
    countKey u tbl = countKey u (removeLeap tbl n) + 1 ∧
    tbl.length = (removeLeap tbl n).length + 1 ∧
    (removeLeap tbl n).Sublist tbl := by
  have hd := removeLeap_decomp tbl n h
  refine ⟨?_, ?_, ?_⟩
  · unfold countKey
    conv_lhs => rw [hd.1]
    rw [hd.2, List.countP_append, List.countP_cons, List.countP_append, hu]
    simp only [beq_self_eq_true, if_true]
    omega
  · conv_lhs => rw [hd.1]
    rw [hd.2]
    simp only [List.length_append, List.length_cons]
    omega
  · rw [hd.2]
    conv_rhs => rw [hd.1]
    exact List.Sublist.append_left (List.sublist_cons_self _ _) _

/-- A strictly ascending table has at most one entry per instant. -/
theorem countKey_le_one (u : Int) (tbl : List leap) (hs : strictAscending tbl) :
    countKey u tbl ≤ 1 := by
  induction tbl with
  | nil => simp [countKey]
  | cons a rest ih =>
      rw [strictAscending, List.pairwise_cons] at hs
      obtain ⟨ha, hrest⟩ := hs
      unfold countKey at *
      rw [List.countP_cons]
      by_cases hau : (a.UnixUTC == u) = true
      · have hz : rest.countP (fun l => l.UnixUTC == u) = 0 := by
          rw [List.countP_eq_zero]
          intro b hb
          simp only [beq_iff_eq] at hau ⊢
          have := ha b hb
          omega
        rw [hz, hau]
        simp
      · rw [if_neg hau]
        simpa using ih hrest

/-- The `RemoveLeapSecond` loop: a nil outcome is a sublist that lost at
most one entry per matching key, and with `start < minLeaps` a non-panic
outcome means the table was untouched. -/
theorem removeLoop_ok (u : Int) (start minL : Nat) :
    ∀ (i : Nat) (tbl tbl' : List leap),
      removeLoop u start minL i tbl = RemOutcome.ok tbl' →
      (tbl'.Sublist tbl ∧ tbl.length ≤ tbl'.length + countKey u tbl) ∧
      (start < minL → tbl' = tbl) := by
  intro i
  induction i with
  | zero =>
      intro tbl tbl' h
      simp only [removeLoop, RemOutcome.ok.injEq] at h
      subst h
      exact ⟨⟨List.Sublist.refl _, by omega⟩, fun _ => rfl⟩
  | succ j ih =>
      intro tbl tbl' h
      unfold removeLoop at h
      cases hget : tbl.get? (j + 1) with
      | none =>
          rw [hget] at h
          simp at h
      | some l =>
          rw [hget] at h
          simp only at h
          obtain ⟨hlt, hgetv⟩ := List.get?_eq_some.mp hget
          by_cases hu : u = l.UnixUTC
          · rw [if_pos hu] at h
            by_cases hstart : start < minL
            · rw [if_pos hstart] at h
              simp at h
            · rw [if_neg hstart] at h
              obtain ⟨⟨hsub, hcount⟩, _⟩ := ih (removeLeap tbl (j + 1)) tbl' h
              have hkey : tbl[j + 1].UnixUTC = u := by
                rw [← hgetv] at hu
                exact hu.symm
              obtain ⟨hc, hl, hsub2⟩ := countKey_remove tbl (j + 1) hlt u hkey
              exact ⟨⟨hsub.trans hsub2, by omega⟩, fun hs => absurd hs hstart⟩
          · rw [if_neg hu] at h
            exact ih tbl tbl' h

/-- A nil-returning `RemoveLeapSecond` call on a strictly ascending table
that is at least the seed size keeps the table strictly ascending and at
least the seed size. -/
theorem RemoveLeapSecond_ok (tbl tbl' : List leap) (u : Int)
    (hs : strictAscending tbl) (hlen : minLeaps ≤ tbl.length)
    (h : RemoveLeapSecond tbl u = RemOutcome.ok tbl') :
    strictAscending tbl' ∧ minLeaps ≤ tbl'.length := by
  unfold RemoveLeapSecond at h
  obtain ⟨⟨hsub, hcount⟩, hunch⟩ :=
    removeLoop_ok u (tbl.length - 1) minLeaps (tbl.length - 1) tbl tbl' h
  by_cases hc : tbl.length - 1 < minLeaps
  · rw [hunch hc]
    exact ⟨hs, hlen⟩
  · have hone := countKey_le_one u tbl hs
    have hmin : 0 < minLeaps := by decide
    exact ⟨List.Pairwise.sublist hsub hs, by omega⟩

/-- Invariant preservation along any panic-free run of registrations
and removals. -/
theorem applyOps_floor_aux :
    ∀ (ops : List tableOp) (tbl tbl' : List leap),
      strictAscending tbl → minLeaps ≤ tbl.length →
      applyOps ops tbl = some tbl' →
      strictAscending tbl' ∧ minLeaps ≤ tbl'.length := by
  intro ops
  induction ops with
  | nil =>
      intro tbl tbl' hs hl h
      simp only [applyOps, Option.some.injEq] at h
      subst h
      exact ⟨hs, hl⟩
  | cons op rest ih =>
      intro tbl tbl' hs hl h
      have hmin : minLeaps = 28 := by decide
      cases op with
      | reg u c =>
          unfold applyOps at h
          cases hreg : RegisterLeapSecond tbl u c with
          | ok tbl2 =>
              rw [hreg] at h
              simp only at h
              obtain ⟨hlt, heq⟩ := RegisterLeapSecond_ok tbl u c tbl2 (by omega) hreg
              subst heq
              refine ih _ _ ?_ ?_ h
              · exact strictAscending_append _ _ hs
                  (fun x hx => lt_of_le_of_lt (key_le_last tbl hs x hx) hlt)
              · simp only [List.length_append, List.length_singleton]
                omega
          | errMismatch =>
              rw [hreg] at h
              exact ih _ _ hs hl h
          | errFloor =>
              rw [hreg] at h
              exact ih _ _ hs hl h
          | indexOutOfRange =>
              rw [hreg] at h
              simp at h
      | rem u =>
          unfold applyOps at h
          cases hrem : RemoveLeapSecond tbl u with
          | ok tbl2 =>
              rw [hrem] at h
              simp only at h
              obtain ⟨hs2, hl2⟩ := RemoveLeapSecond_ok tbl tbl2 u hs hl hrem
              exact ih _ _ hs2 hl2 h
          | panicked =>
              rw [hrem] at h
              simp at h

/-- C8 (amended): across any panic-free sequence of registrations and
removals from the seed, the table never holds fewer entries than the
build-time seed count (the floor check protects the count only: a seed
entry itself can be removed once the table has grown). -/
theorem applyOps_never_below_seed (ops : List tableOp) (tbl' : List leap)
    (h : applyOps ops leaps = some tbl') : minLeaps ≤ tbl'.length :=
  (applyOps_floor_aux ops leaps tbl' (by decide) (by decide) h).2

/-- Closed instance of C8: register one future leap, then remove the last
seed entry; the table still holds 28 entries. -/
theorem applyOps_never_below_seed_witness :
    minLeaps ≤ (leaps.take 27 ++ [(⟨1500000000, 38⟩ : leap)]).length :=
  applyOps_never_below_seed [tableOp.reg 1500000000 38, tableOp.rem 1483171200]
    (leaps.take 27 ++ [(⟨1500000000, 38⟩ : leap)]) (by decide)

/-- C8 (counterexample): once the table has grown beyond the seed count,
`RemoveLeapSecond` happily removes an entry of the original seed — the
floor protection checks only the entry count, not seed membership. -/
theorem RemoveLeapSecond_removes_seed_entry :
    RegisterLeapSecond leaps 1500000000 38 =
      RegOutcome.ok (leaps ++ [(⟨1500000000, 38⟩ : leap)]) ∧
    RemoveLeapSecond (leaps ++ [(⟨1500000000, 38⟩ : leap)]) 1483171200 =
      RemOutcome.ok (leaps.take 27 ++ [(⟨1500000000, 38⟩ : leap)]) ∧
    (⟨1483171200, 37⟩ : leap) ∈ leaps ∧
    (⟨1483171200, 37⟩ : leap) ∉ leaps.take 27 ++ [(⟨1500000000, 38⟩ : leap)] := by
  exact ⟨by decide, by decide, by decide, by decide⟩

/-! ## Calendar round trip (C2) -/

/-- The `if y >= 0 then y/N else (y-(N-1))/N` pattern of the source is
floor division: the negative branch, in Euclidean terms. -/
theorem tdiv_floor_shift (a b : Int) (ha : a < 0) (hb : 0 < b) :
    Int.tdiv (a - (b - 1)) b = a / b := by
  have hq := Int.ediv_add_emod a b
  have hr1 := Int.emod_nonneg a (show b ≠ 0 by omega)
  have hr2 := Int.emod_lt_of_pos a hb
  have h1 : -(a - (b - 1)) = (b - 1 - a % b) + b * (-(a / b)) := by linarith
  have h2 : (-(a - (b - 1))).tdiv b = -((a - (b - 1)).tdiv b) := Int.neg_tdiv _ b
  have h3 : (-(a - (b - 1))).tdiv b = (-(a - (b - 1))) / b :=
    Int.tdiv_eq_ediv (by omega) (by omega)
  rw [h1] at h2 h3
  have h4 : ((b - 1 - a % b) + b * (-(a / b))) / b = (b - 1 - a % b) / b + (-(a / b)) :=
    Int.add_mul_ediv_left _ _ (by omega)
  have h5 : (b - 1 - a % b) / b = 0 := Int.ediv_eq_zero_of_lt (by omega) (by omega)
  omega

/-- Go's `x % n == 0` test is divisibility, whatever the sign of `x`. -/
theorem tmod_eq_zero_iff (a b : Int) (hb : 0 < b) :
    Int.tmod a b = 0 ↔ a % b = 0 := by
  rcases le_or_lt 0 a with h | h
  · rw [tmod_of_nonneg a b h (by omega)]
  · rw [tmod_of_neg a b h hb, neg_eq_zero,
      ← Int.dvd_iff_emod_eq_zero, ← Int.dvd_iff_emod_eq_zero]
    exact dvd_neg

/-- `IsLeapYear` in terms of Euclidean remainders. -/
theorem isLeapYear_iff (y : Int) :
    IsLeapYear y = true ↔ (y % 4 = 0 ∧ (y % 100 ≠ 0 ∨ y % 400 = 0)) := by
  have e4 := tmod_eq_zero_iff y 4 (by norm_num)
  have e100 := tmod_eq_zero_iff y 100 (by norm_num)
  have e400 := tmod_eq_zero_iff y 400 (by norm_num)
  unfold IsLeapYear
  split_ifs with h1 h2
  · simp only [decide_eq_true_eq]
    rw [e400]
    constructor
    · intro h
      exact ⟨e4.mp h1, Or.inr h⟩
    · intro h
      rcases h.2 with hc | hc
      · exact absurd (e100.mp h2) hc
      · exact hc
  · simp only [true_iff]
    exact ⟨e4.mp h1, Or.inl (fun hc => h2 (e100.mpr hc))⟩
  · simp only [false_iff]
    intro hcon
    exact h1 (e4.mpr hcon.1)

/-- One step of monotonicity for the leap-day correction: the decrement
at multiples of 146096 is always cancelled by the increment at multiples
of 36524, because `146096 = 4 * 36524`. -/
theorem fCorr_step (x : Int) : fCorr x ≤ fCorr (x + 1) := by
  unfold fCorr
  omega

/-- `fCorr` is monotone. -/
theorem fCorr_mono (x y : Int) (hxy : x ≤ y) : fCorr x ≤ fCorr y :=
  @Int.le_induction (fun n => fCorr x ≤ fCorr n) x (le_refl _)
    (fun n _ ih => le_trans ih (fCorr_step n)) y hxy

set_option maxRecDepth 4000 in
/-- All 400 endpoint checks hold (kernel evaluation). -/
theorem allYoe400 : allYoeBelow 400 = true := by decide

/-- Extracting a single endpoint check from the conjunction. -/
theorem allYoeBelow_spec :
    ∀ n : Nat, allYoeBelow n = true → ∀ k : Nat, k < n → checkYoe (k : Int) = true := by
  intro n
  induction n with
  | zero =>
      intro _ k hk
      omega
  | succ m ih =>
      intro h k hk
      unfold allYoeBelow at h
      rw [Bool.and_eq_true] at h
      rcases Nat.lt_succ_iff_lt_or_eq.mp hk with h2 | h2
      · exact ih h.2 k h2
      · rw [h2]
        exact h.1

/-- The endpoint bounds for any year of the era. -/
theorem checkYoe_props (yoe : Int) (h1 : 0 ≤ yoe) (h2 : yoe < 400) :
    365 * yoe ≤ fCorr (startOfYoe yoe) ∧
    fCorr (startOfYoe yoe + lenOfYoe yoe - 1) ≤ 365 * yoe + 364 := by
  have hk : ((yoe.toNat : Nat) : Int) = yoe := Int.toNat_of_nonneg h1
  have hc := allYoeBelow_spec 400 allYoe400 yoe.toNat (by omega)
  rw [hk] at hc
  unfold checkYoe at hc
  rw [Bool.and_eq_true, decide_eq_true_eq, decide_eq_true_eq] at hc
  exact hc

/-- The year-of-era recovery at the heart of `CivilFromDays`: for any day
of a valid year of the era, dividing the corrected day-of-era by 365
gives the year-of-era back. -/
theorem fCorr_div_365 (yoe doy : Int) (h1 : 0 ≤ yoe) (h2 : yoe < 400)
    (h3 : 0 ≤ doy) (h4 : doy < lenOfYoe yoe) :
    fCorr (startOfYoe yoe + doy) / 365 = yoe := by
  obtain ⟨hlo, hhi⟩ := checkYoe_props yoe h1 h2
  have m1 : fCorr (startOfYoe yoe) ≤ fCorr (startOfYoe yoe + doy) :=
    fCorr_mono _ _ (by omega)
  have m2 : fCorr (startOfYoe yoe + doy) ≤ fCorr (startOfYoe yoe + lenOfYoe yoe - 1) :=
    fCorr_mono _ _ (by omega)
  omega

/-- Per-month facts: the March-based day-of-year of a valid civil date is
inside its year of the era, and the month index is recovered by
`(5*doy + 2)/153`. -/
theorem month_facts (y m d yoe : Int) (hm1 : 1 ≤ m) (hm2 : m ≤ 12)
    (hd1 : 1 ≤ d) (hd2 : d ≤ DaysInMonth m y)
    (hyoe : yoe = (if m ≤ 2 then y - 1 else y) % 400) :
    0 ≤ (153 * (if 2 < m then m - 3 else m + 9) + 2) / 5 + d - 1 ∧
    (153 * (if 2 < m then m - 3 else m + 9) + 2) / 5 + d - 1 < lenOfYoe yoe ∧
    (5 * ((153 * (if 2 < m then m - 3 else m + 9) + 2) / 5 + d - 1) + 2) / 153 =
      (if 2 < m then m - 3 else m + 9) := by
  have h365 : lenOfYoe yoe = 365 ∨ lenOfYoe yoe = 366 := by
    unfold lenOfYoe
    split_ifs <;> simp
  interval_cases m
  · have hdm : DaysInMonth 1 y = 31 := by
      unfold DaysInMonth
      split_ifs <;> rfl
    rw [hdm] at hd2
    norm_num
    omega
  · have hdm : DaysInMonth 2 y = if IsLeapYear y then 29 else 28 := by
      unfold DaysInMonth
      split_ifs <;> rfl
    rw [hdm] at hd2
    norm_num at hyoe ⊢
    by_cases hly : IsLeapYear y = true
    · rw [if_pos hly] at hd2
      have hl := (isLeapYear_iff y).mp hly
      have hlen : lenOfYoe yoe = 366 := by
        unfold lenOfYoe
        rw [if_pos (by omega)]
      omega
    · rw [if_neg hly] at hd2
      omega
  · have hdm : DaysInMonth 3 y = 31 := by
      unfold DaysInMonth
      split_ifs <;> rfl
    rw [hdm] at hd2
    norm_num
    omega
  · have hdm : DaysInMonth 4 y = 30 := by
      unfold DaysInMonth
      split_ifs <;> rfl
    rw [hdm] at hd2
    norm_num
    omega
  · have hdm : DaysInMonth 5 y = 31 := by
      unfold DaysInMonth
      split_ifs <;> rfl
    rw [hdm] at hd2
    norm_num
    omega
  · have hdm : DaysInMonth 6 y = 30 := by
      unfold DaysInMonth
      split_ifs <;> rfl
    rw [hdm] at hd2
    norm_num
    omega
  · have hdm : DaysInMonth 7 y = 31 := by
      unfold DaysInMonth
      split_ifs <;> rfl
    rw [hdm] at hd2
    norm_num
    omega
  · have hdm : DaysInMonth 8 y = 31 := by
      unfold DaysInMonth
      split_ifs <;> rfl
    rw [hdm] at hd2
    norm_num
    omega
  · have hdm : DaysInMonth 9 y = 30 := by
      unfold DaysInMonth
      split_ifs <;> rfl
    rw [hdm] at hd2
    norm_num
    omega
  · have hdm : DaysInMonth 10 y = 31 := by
      unfold DaysInMonth
      split_ifs <;> rfl
    rw [hdm] at hd2
    norm_num
    omega
  · have hdm : DaysInMonth 11 y = 30 := by
      unfold DaysInMonth
      split_ifs <;> rfl
    rw [hdm] at hd2
    norm_num
    omega
  · have hdm : DaysInMonth 12 y = 31 := by
      unfold DaysInMonth
      split_ifs <;> rfl
    rw [hdm] at hd2
    norm_num
    omega

/-- `DaysFromCivil`, rewritten with floor divisions: era times 146097
plus day-of-era minus the epoch shift. -/
theorem DaysFromCivil_eq (y m d : Int) (hm1 : 1 ≤ m) (hm2 : m ≤ 12) :
    DaysFromCivil y m d =
      146097 * ((if m ≤ 2 then y - 1 else y) / 400) +
      (startOfYoe ((if m ≤ 2 then y - 1 else y) % 400) +
        ((153 * (if 2 < m then m - 3 else m + 9) + 2) / 5 + d - 1)) - 715085 := by
  unfold DaysFromCivil
  simp only [eraYears, eraYearsm1, yearDays, eraDays, epochDays]
  set y1 := (if m ≤ 2 then y - 1 else y) with hy1
  set mp := (if 2 < m then m - 3 else m + 9) with hmp
  have hmp0 : 0 ≤ mp := by
    rw [hmp]
    split_ifs <;> omega
  have hera : (if 0 ≤ y1 then Int.tdiv y1 400 else Int.tdiv (y1 - (400 - 1)) 400) =
      y1 / 400 := by
    split_ifs with h
    · exact tdiv_of_nonneg _ _ h (by norm_num)
    · exact tdiv_floor_shift y1 400 (by omega) (by norm_num)
  rw [hera]
  have hyoe : y1 - y1 / 400 * 400 = y1 % 400 := by
    have := Int.emod_def y1 400
    omega
  rw [hyoe]
  have hmod0 : 0 ≤ y1 % 400 := Int.emod_nonneg y1 (by norm_num)
  rw [tdiv_of_nonneg (y1 % 400) 4 hmod0 (by norm_num),
      tdiv_of_nonneg (y1 % 400) 100 hmod0 (by norm_num),
      tdiv_of_nonneg (153 * mp + 2) 5 (by omega) (by norm_num)]
  unfold startOfYoe
  ring

/-- `CivilFromDays` on an era-decomposed argument, rewritten with floor
divisions, given names and sign facts for the intermediate values. -/
theorem CivilFromDays_eq (era doe yoe2 doy2 mp2 : Int)
    (h1 : 0 ≤ doe) (h2 : doe < 146097)
    (hy : yoe2 = fCorr doe / 365) (hyb : 0 ≤ yoe2)
    (hdy : doy2 = doe - startOfYoe yoe2) (hdyb : 0 ≤ doy2)
    (hmp : mp2 = (5 * doy2 + 2) / 153) (hmpb : 0 ≤ mp2) :
    CivilFromDays (146097 * era + doe - 715085) =
      (if (if mp2 < 10 then mp2 + 3 else mp2 - 9) ≤ 2
       then (yoe2 + era * 400 + 1, if mp2 < 10 then mp2 + 3 else mp2 - 9,
             doy2 - (153 * mp2 + 2) / 5 + 1)
       else (yoe2 + era * 400, if mp2 < 10 then mp2 + 3 else mp2 - 9,
             doy2 - (153 * mp2 + 2) / 5 + 1)) := by
  unfold CivilFromDays
  simp only [epochDays, eraDays, eraDaysm1, eraYears]
  rw [show 146097 * era + doe - 715085 + (719468 - 4383) = 146097 * era + doe by ring]
  have hera : Int.tdiv (if 0 ≤ 146097 * era + doe then 146097 * era + doe
               else 146097 * era + doe - (146097 - 1)) 146097 = era := by
    split_ifs with h
    · rw [tdiv_of_nonneg _ _ h (by norm_num)]
      omega
    · rw [tdiv_floor_shift _ 146097 (by omega) (by norm_num)]
      omega
  rw [hera, show 146097 * era + doe - era * 146097 = doe by ring]
  rw [tdiv_of_nonneg doe 1460 h1 (by norm_num),
      tdiv_of_nonneg doe 36524 h1 (by norm_num),
      tdiv_of_nonneg doe 146096 h1 (by norm_num)]
  rw [show doe - doe / 1460 + doe / 36524 - doe / 146096 = fCorr doe from by
    unfold fCorr; ring]
  have hfc0 : 0 ≤ fCorr doe := by
    unfold fCorr
    omega
  rw [tdiv_of_nonneg (fCorr doe) 365 hfc0 (by norm_num), ← hy]
  rw [tdiv_of_nonneg yoe2 4 hyb (by norm_num), tdiv_of_nonneg yoe2 100 hyb (by norm_num)]
  rw [show doe - (365 * yoe2 + yoe2 / 4 - yoe2 / 100) = doy2 from by
    rw [hdy]; unfold startOfYoe; ring]
  rw [tdiv_of_nonneg (5 * doy2 + 2) 153 (by omega) (by norm_num), ← hmp]
  rw [tdiv_of_nonneg (153 * mp2 + 2) 5 (by omega) (by norm_num)]

/-- C2: for every year in -4716..10000, every month 1..12 and every day
valid for that month and year, `CivilFromDays (DaysFromCivil y m d)`
returns exactly `(y, m, d)`. -/
theorem days_civil_roundtrip (y m d : Int)
    (hy1 : -4716 ≤ y) (hy2 : y ≤ 10000) (hm1 : 1 ≤ m) (hm2 : m ≤ 12)
    (hd1 : 1 ≤ d) (hd2 : d ≤ DaysInMonth m y) :
    CivilFromDays (DaysFromCivil y m d) = (y, m, d) := by
  have hA := DaysFromCivil_eq y m d hm1 hm2
  set y1 := (if m ≤ 2 then y - 1 else y) with hy1d
  set mp := (if 2 < m then m - 3 else m + 9) with hmpd
  set era := y1 / 400 with herad
  set yoe := y1 % 400 with hyoed
  set doy := (153 * mp + 2) / 5 + d - 1 with hdoyd
  obtain ⟨hdoy0, hdoylen, hmprec⟩ :=
    month_facts y m d yoe hm1 hm2 hd1 hd2 (by rw [hyoed, hy1d])
  have hyoe0 : 0 ≤ yoe := by
    rw [hyoed]
    exact Int.emod_nonneg _ (by norm_num)
  have hyoe400 : yoe < 400 := by
    rw [hyoed]
    exact Int.emod_lt_of_pos _ (by norm_num)
  have hstart0 : 0 ≤ startOfYoe yoe := by
    unfold startOfYoe
    omega
  have hstartend : startOfYoe yoe + lenOfYoe yoe ≤ 146097 := by
    unfold startOfYoe lenOfYoe
    split_ifs <;> omega
  set doe := startOfYoe yoe + doy with hdoed
  have hdoe0 : 0 ≤ doe := by omega
  have hdoe1 : doe < 146097 := by omega
  have hyrec : fCorr doe / 365 = yoe := by
    rw [hdoed]
    exact fCorr_div_365 yoe doy hyoe0 hyoe400 hdoy0 hdoylen
  have hmpb : 0 ≤ mp := by
    rw [hmpd]
    split_ifs <;> omega
  have hB := CivilFromDays_eq era doe yoe doy mp hdoe0 hdoe1 hyrec.symm hyoe0
    (by rw [hdoed]; ring) hdoy0 hmprec.symm hmpb
  rw [hA, hB]
  have hy1val : 400 * era + yoe = y1 := by
    rw [herad, hyoed]
    have := Int.emod_def y1 400
    omega
  have hdrec : doy - (153 * mp + 2) / 5 + 1 = d := by
    rw [hdoyd]
    ring
  by_cases hm3 : m ≤ 2
  · have hmpv : mp = m + 9 := by
      rw [hmpd, if_neg (by omega)]
    have hyv : y1 = y - 1 := by
      rw [hy1d, if_pos hm3]
    rw [if_neg (show ¬ mp < 10 by omega), if_pos (show mp - 9 ≤ 2 by omega)]
    simp only [Prod.mk.injEq]
    exact ⟨by omega, by omega, hdrec⟩
  · have hmpv : mp = m - 3 := by
      rw [hmpd, if_pos (by omega)]
    have hyv : y1 = y := by
      rw [hy1d, if_neg hm3]
    rw [if_pos (show mp < 10 by omega), if_neg (show ¬ mp + 3 ≤ 2 by omega)]
    simp only [Prod.mk.injEq]
    exact ⟨by omega, by omega, hdrec⟩

/-- Closed instance of C2 at the leap day Feb 29 2024. -/
theorem days_civil_roundtrip_witness :
    CivilFromDays (DaysFromCivil 2024 2 29) = (2024, 2, 29) :=
  days_civil_roundtrip 2024 2 29 (by norm_num) (by norm_num) (by norm_num)
    (by norm_num) (by norm_num) (by decide)

end Tai
